import Mathlib

/-!
Verification of the captcha shape-matching pipeline
(`detect_captcha/solver.py`, `detect_captcha/utils.py`).

Shallow embedding conventions:
* Python floats are modelled as exact rationals (`ℚ`); the float value
  `inf` (which arises as the initial best score and as the nearest-neighbour
  minimum over an empty cloud) is modelled by `⊤ : WithTop ℚ`.
* Python exceptions (`ZeroDivisionError` in `calculate_distance`,
  division by zero in `downsample_points`) are modelled by `Option`:
  `none` means the call raises.
* Python strings are `String`; per the data model a reference entry's
  label is a single character, modelled as `Char`, and `final_text +=
  best_label` becomes `String.push`.
* Pixel coordinates in the raster extractor are natural numbers.
-/

/-- A 2-D point, as in the Python `(x, y)` tuples. -/
abbrev Point : Type := ℚ × ℚ

/-- Minimum of a Python list: `min(xs)`; the `[]` case is unreachable at
every call site (callers guard on non-emptiness). -/
def minList : List ℚ → ℚ
  | [] => 0
  | x :: xs => xs.foldl min x

/-- Maximum of a Python list: `max(xs)`. -/
def maxList : List ℚ → ℚ
  | [] => 0
  | x :: xs => xs.foldl max x

/-- Embeds `normalize_points` (utils.py lines 184-229): bounding box,
degeneracy check, uniform scale `size / max(w, h)`, re-centering to
`(size/2, size/2)`.  The Python default argument is `size=100`; callers in
this development pass it explicitly. -/
def normalize_points (points : List Point) (size : ℚ) : List Point :=
  if points.length = 0 then []
  else
    let xs := points.map Prod.fst
    let ys := points.map Prod.snd
    let min_x := minList xs
    let max_x := maxList xs
    let min_y := minList ys
    let max_y := maxList ys
    let w := max_x - min_x
    let h := max_y - min_y
    if w = 0 ∨ h = 0 then []
    else
      let scale := size / max w h
      let center_x := (min_x + max_x) / 2
      let center_y := (min_y + max_y) / 2
      points.map (fun q =>
        ((q.1 - center_x) * scale + size / 2,
         (q.2 - center_y) * scale + size / 2))

/-- Embeds `downsample_points` (utils.py lines 271-289).  `none` models the
`ZeroDivisionError` raised by `step = len(points) / max_points` when
`max_points = 0` and the identity branch is not taken; `int(i * step)`
on exact arithmetic is the floor division `i * len / max_points`. -/
def downsample_points (points : List Point) (max_points : ℕ) : Option (List Point) :=
  if points.length ≤ max_points then some points
  else if max_points = 0 then none
  else some ((List.range max_points).map
    (fun i => points.getD (i * points.length / max_points) (0, 0)))

/-- Squared Euclidean distance `(x1-x2)**2 + (y1-y2)**2` from the inner loop
of `calculate_distance`. -/
def sqdist (p q : Point) : ℚ :=
  (p.1 - q.1) ^ 2 + (p.2 - q.2) ^ 2

/-- The inner nearest-neighbour scan of `calculate_distance`: the minimum of
`sqdist p r` over `r` in the second cloud.  The `[]` case is unreachable:
`calculate_distance` branches on emptiness first (an empty second cloud
leaves the Python running minimum at `inf`, handled by the caller). -/
def minD (p : Point) : List Point → ℚ
  | [] => 0
  | q :: rest => rest.foldl (fun m r => min m (sqdist p r)) (sqdist p q)

/-- The cloud actually scanned by `calculate_distance`:
`pts if len(pts) < 100 else downsample_points(pts)`. -/
def prep (pts : List Point) : Option (List Point) :=
  if pts.length < 100 then some pts else downsample_points pts 100

/-- Embeds `CaptchaSolver.calculate_distance` (solver.py lines 55-85):
one-way Chamfer distance.  Both clouds are downsampled when they have 100
or more points; `none` models the `ZeroDivisionError` in
`error / len(p1)` when `p1` is empty; `some ⊤` models the `inf` result
when `p1` is non-empty and `p2` is empty. -/
def calculate_distance (pts1 pts2 : List Point) : Option (WithTop ℚ) :=
  (prep pts1).bind fun p1 =>
    (prep pts2).bind fun p2 =>
      if p1.length = 0 then none
      else if p2.length = 0 then some ⊤
      else some (((p1.map (fun p => minD p p2)).sum / (p1.length : ℚ) : ℚ))

/-- A knowledge-base entry `{'label': ..., 'points': ...}`; per the data
model the label is a single character. -/
structure Entry where
  label : Char
  points : List Point
deriving DecidableEq, Repr

/-- The symmetric score `(d1 + d2) / 2` computed in `CaptchaSolver.solve`
(lines 129-133) for one knowledge-base entry. -/
def symmetric_score (a b : List Point) : Option (WithTop ℚ) :=
  (calculate_distance a b).bind fun d1 =>
    (calculate_distance b a).bind fun d2 =>
      some ((d1 + d2).map (fun q => q / 2))

/-- The 1-NN scan of `CaptchaSolver.solve` (lines 127-139): fold over the
knowledge base keeping `(best_score, best_label)`, updating on a strictly
smaller score; started at `(inf, '?')` by the caller. -/
def bestMatch (kb : List Entry) (n : List Point) (acc : WithTop ℚ × Char) :
    Option (WithTop ℚ × Char) :=
  match kb with
  | [] => some acc
  | e :: rest =>
    (symmetric_score n e.points).bind fun s =>
      bestMatch rest n (if s < acc.1 then (s, e.label) else acc)

/-- The per-character body of `CaptchaSolver.solve` (lines 119-144):
normalize, scan the knowledge base, then threshold `best_score < 1000`. -/
def solveChar (kb : List Entry) (pts : List Point) : Option Char :=
  (bestMatch kb (normalize_points pts 100) ((⊤ : WithTop ℚ), '?')).map fun best =>
    if best.1 < ((1000 : ℚ) : WithTop ℚ) then best.2 else '?'

/-- The character loop of `CaptchaSolver.solve` accumulating `final_text`;
empty input clouds are skipped (`if not pts: continue`). -/
def solveAux (kb : List Entry) : List (List Point) → String → Option String
  | [], acc => some acc
  | pts :: rest, acc =>
    if pts.length = 0 then solveAux kb rest acc
    else
      (solveChar kb pts).bind fun c => solveAux kb rest (acc.push c)

/-- Embeds `CaptchaSolver.solve` (solver.py lines 107-145) on the
pre-extracted contour-list input variant (`input_data` a list of
`{'points': ...}` records); `none` models an exception escaping. -/
def solve (kb : List Entry) (paths : List (List Point)) : Option String :=
  solveAux kb paths ""

/-- Embeds `CaptchaSolver.load_db` (solver.py lines 20-32).  The file
system is abstracted as `Option String` (`none` = `os.path.exists` is
false); `parse` abstracts `json.load` together with the enclosing `open`
(`none` = the bare `except:` catches a raised error, e.g. invalid JSON). -/
def load_db (file : Option String) (parse : String → Option (List Entry)) :
    List Entry :=
  match file with
  | none => []
  | some content =>
    match parse content with
    | none => []
    | some kb => kb

/-- Python 3 `round` on exact arithmetic: round half to even. -/
def pyRound (q : ℚ) : ℤ :=
  if q - Int.floor q < 1 / 2 then Int.floor q
  else if 1 / 2 < q - Int.floor q then Int.floor q + 1
  else if Int.floor q % 2 = 0 then Int.floor q else Int.floor q + 1

/-- The estimated character count of the raster split heuristic
(utils.py lines 95-100): `num_chars = int(round(aspect_ratio / 0.80))`
clamped below by 2. -/
def num_chars_for (w h : ℕ) : ℕ :=
  max 2 (pyRound (((w : ℚ) / (h : ℚ)) / (8 / 10))).toNat

/-- The band partition of the raster split heuristic (utils.py lines
102-117): `step = w // num_chars`, band `i` keeps the contour points with
`x + i*step <= px < x + (i+1)*step`. -/
def split_component (x w num_chars : ℕ) (pts : List (ℕ × ℕ)) :
    List (List (ℕ × ℕ)) :=
  let step := w / num_chars
  (List.range num_chars).map (fun i =>
    pts.filter (fun p => decide (x + i * step ≤ p.1 ∧ p.1 < x + (i + 1) * step)))

/-- Per-component processing of `process_png_content` (utils.py lines
88-120) after the noise filter: components with aspect ratio `w/h > 1.1`
are split into bands, keeping bands with more than 10 points; others pass
through whole. -/
def process_component (x w h : ℕ) (pts : List (ℕ × ℕ)) :
    List (List (ℕ × ℕ)) :=
  if (11 / 10 : ℚ) < (w : ℚ) / (h : ℚ) then
    (split_component x w (num_chars_for w h) pts).filter
      (fun sp => decide (10 < sp.length))
  else [pts]

/-- C1: with a non-empty knowledge base, a character cloud with non-empty
points but a zero-height bounding box makes `normalize_points` return `[]`,
and `solve` then aborts the whole recognition (`ZeroDivisionError` in
`calculate_distance`, modelled as `none`) instead of dropping the character:
the same call without the degenerate cloud returns `"A"`. -/
theorem c1_degenerate_cloud_aborts_solve :
    normalize_points [((0 : ℚ), (0 : ℚ)), ((5 : ℚ), (0 : ℚ))] 100 = [] ∧
    solve [⟨'A', [((0 : ℚ), 0), (100, 100)]⟩]
      [[((0 : ℚ), (0 : ℚ)), ((5 : ℚ), (0 : ℚ))], [((0 : ℚ), 0), ((100 : ℚ), (100 : ℚ))]]
      = none ∧
    solve [⟨'A', [((0 : ℚ), 0), (100, 100)]⟩]
      [[((0 : ℚ), 0), ((100 : ℚ), (100 : ℚ))]] = some "A" := by
  refine ⟨?_, ?_, ?_⟩ <;>
    norm_num [solve, solveAux, solveChar, bestMatch, symmetric_score, calculate_distance,
      prep, downsample_points, minD, sqdist, normalize_points, minList, maxList,
      min_def, max_def, List.cons_ne_nil, WithTop.coe_lt_top, WithTop.map_coe,
      WithTop.coe_lt_coe]
  rfl

/-- C2 counterexample: a character cloud and a one-entry knowledge base
whose best symmetric distance is exactly 1000 — which does not exceed 1000 —
yet `solve`'s per-character step emits `'?'`, not the minimum-scoring
entry's label `'A'` (the code tests `best_score < 1000` strictly). -/
theorem c2_threshold_boundary_counterexample :
    symmetric_score (normalize_points [((0 : ℚ), 0), (100, 100)] 100)
      [((40 : ℚ), 0), (100, 120)] = some ((1000 : ℚ) : WithTop ℚ) ∧
    solveChar [⟨'A', [((40 : ℚ), 0), (100, 120)]⟩] [((0 : ℚ), 0), (100, 100)]
      = some '?' := by
  have h2000 : WithTop.map (fun q : ℚ => q / 2) (2000 : WithTop ℚ)
      = ((1000 : ℚ) : WithTop ℚ) := by
    rw [show (2000 : WithTop ℚ) = ((2000 : ℚ) : WithTop ℚ) from rfl, WithTop.map_coe]
    norm_num
  have hlt : (1000 : WithTop ℚ) < ⊤ := by
    rw [show (1000 : WithTop ℚ) = ((1000 : ℚ) : WithTop ℚ) from rfl]
    exact WithTop.coe_lt_top _
  constructor <;>
    norm_num [solveChar, bestMatch, symmetric_score, calculate_distance,
      prep, downsample_points, minD, sqdist, normalize_points, minList, maxList,
      min_def, max_def, List.cons_ne_nil, WithTop.coe_lt_top, WithTop.map_coe,
      WithTop.coe_lt_coe, h2000, hlt, lt_self_iff_false]

/-- C3 counterexample: a component with bounding box 40×20 has aspect ratio
exactly 2.0; the code partitions it into `2` bands (Python 3 `round` is
half-to-even and `2.0 / 0.80` is exactly `2.5`, so `round` gives `2`),
while the claim's formula `max(2, round(2.0/0.80))` with conventional
half-up rounding gives `3`. -/
theorem c3_aspect_two_counterexample :
    (split_component 0 40 (num_chars_for 40 20) [((0 : ℕ), (0 : ℕ))]).length = 2 ∧
    max 2 (round (((40 : ℚ) / (20 : ℚ)) / (8 / 10))) = 3 := by
  constructor
  · have h : num_chars_for 40 20 = 2 := by norm_num [num_chars_for, pyRound]
    simp [split_component, h]
  · norm_num [round_eq]

/-- C8 counterexample: with `max_points = 0` and a non-empty cloud,
`downsample_points` raises `ZeroDivisionError` (modelled as `none`) instead
of returning a list of `maxPoints = 0` points. -/
theorem c8_zero_bound_counterexample :
    downsample_points [((0 : ℚ), (0 : ℚ))] 0 = none := by
  decide

/-- C9: `load_db` is a total function (it never raises); when the database
file is absent it yields the empty knowledge base, and when the file is
present but parsing raises (invalid JSON, modelled by `parse c = none`)
it also yields the empty knowledge base. -/
theorem c9_load_db_never_raises (file : Option String)
    (parse : String → Option (List Entry)) :
    (file = none → load_db file parse = []) ∧
    (∀ c, file = some c → parse c = none → load_db file parse = []) := by
  constructor
  · rintro rfl
    rfl
  · rintro c rfl h
    simp [load_db, h]

/-- C9 witness: a concrete absent file and a concrete corrupt file both
load as the empty knowledge base. -/
theorem c9_load_db_never_raises_witness :
    load_db none (fun _ => none) = [] ∧
    load_db (some "not json") (fun _ => none) = [] :=
  ⟨(c9_load_db_never_raises none (fun _ => none)).1 rfl,
   (c9_load_db_never_raises (some "not json") (fun _ => none)).2 "not json" rfl rfl⟩

/-- With an empty knowledge base the per-character step always emits the
unknown sentinel. -/
theorem solveChar_nil (pts : List Point) : solveChar [] pts = some '?' := by
  simp [solveChar, bestMatch]

/-- The character loop over an empty knowledge base appends one sentinel per
non-empty cloud. -/
theorem solveAux_nil_kb (paths : List (List Point)) :
    ∀ acc : String, (∀ p ∈ paths, p ≠ []) →
      solveAux [] paths acc = some ⟨acc.data ++ List.replicate paths.length '?'⟩ := by
  induction paths with
  | nil =>
    intro acc _
    simp [solveAux]
  | cons pts rest ih =>
    intro acc h
    have hne : pts ≠ [] := h pts (List.mem_cons_self pts rest)
    have h0 : ¬ pts.length = 0 := by simpa [List.length_eq_zero] using hne
    simp only [solveAux, if_neg h0, solveChar_nil, Option.some_bind]
    rw [ih (acc.push '?') (fun p hp => h p (List.mem_cons_of_mem _ hp))]
    refine congrArg some (String.ext ?_)
    simp [String.data_push, List.replicate_succ]

/-- C4: with an empty knowledge base, `solve` returns a string made entirely
of the unknown sentinel, one per extracted character cloud (extracted clouds
are non-empty: both extractors discard empty clouds). -/
theorem c4_empty_kb_all_unknown (paths : List (List Point))
    (h : ∀ p ∈ paths, p ≠ []) :
    solve [] paths = some (String.mk (List.replicate paths.length '?')) := by
  have := solveAux_nil_kb paths "" h
  simpa [solve] using this

/-- C4 witness: two concrete clouds against the empty knowledge base yield
the two-sentinel string. -/
theorem c4_empty_kb_all_unknown_witness :
    solve [] [[((0 : ℚ), (0 : ℚ))], [((1 : ℚ), (2 : ℚ))]]
      = some (String.mk (List.replicate 2 '?')) :=
  c4_empty_kb_all_unknown [[((0 : ℚ), (0 : ℚ))], [((1 : ℚ), (2 : ℚ))]] (by decide)

/-- Lower bound of a left fold by `min`: folding cannot go above the seed. -/
theorem foldl_min_le_init (l : List ℚ) : ∀ a : ℚ, l.foldl min a ≤ a := by
  induction l with
  | nil => intro a; exact le_refl a
  | cons x xs ih => intro a; exact le_trans (ih (min a x)) (min_le_left a x)

/-- Folding by `min` is bounded by every list member. -/
theorem foldl_min_le_mem (l : List ℚ) : ∀ (a b : ℚ), b ∈ l → l.foldl min a ≤ b := by
  induction l with
  | nil =>
    intro a b hb
    cases hb
  | cons x xs ih =>
    intro a b hb
    rcases List.mem_cons.1 hb with rfl | hb
    · exact le_trans (foldl_min_le_init xs (min a b)) (min_le_right a b)
    · exact ih (min a x) b hb

/-- A common lower bound of the seed and all members bounds the fold. -/
theorem le_foldl_min (l : List ℚ) :
    ∀ (a c : ℚ), c ≤ a → (∀ b ∈ l, c ≤ b) → c ≤ l.foldl min a := by
  induction l with
  | nil => intro a c h _; exact h
  | cons x xs ih =>
    intro a c h hall
    exact ih (min a x) c (le_min h (hall x (List.mem_cons_self x xs)))
      (fun b hb => hall b (List.mem_cons_of_mem x hb))

/-- The running-minimum loop of `calculate_distance` as a fold by `min` over
the mapped squared distances. -/
theorem minD_cons_eq (p q : Point) (rest : List Point) :
    minD p (q :: rest) = (rest.map (sqdist p)).foldl min (sqdist p q) := by
  simp [minD, List.foldl_map]

/-- Squared distances are nonnegative. -/
theorem sqdist_nonneg (p q : Point) : 0 ≤ sqdist p q :=
  add_nonneg (sq_nonneg _) (sq_nonneg _)

/-- A point is at squared distance zero from itself. -/
theorem sqdist_self (p : Point) : sqdist p p = 0 := by
  simp [sqdist]

/-- The nearest-neighbour minimum is nonnegative. -/
theorem minD_nonneg (p : Point) (l : List Point) : 0 ≤ minD p l := by
  cases l with
  | nil => exact le_refl 0
  | cons q rest =>
    rw [minD_cons_eq]
    refine le_foldl_min _ _ _ (sqdist_nonneg p q) ?_
    intro b hb
    rcases List.mem_map.1 hb with ⟨r, _, rfl⟩
    exact sqdist_nonneg p r

/-- A point that occurs in the scanned cloud has nearest-neighbour minimum
zero. -/
theorem minD_eq_zero_of_mem (p : Point) (l : List Point) (hp : p ∈ l) :
    minD p l = 0 := by
  refine le_antisymm ?_ (minD_nonneg p l)
  cases l with
  | nil => cases hp
  | cons q rest =>
    rw [minD_cons_eq]
    rcases List.mem_cons.1 hp with rfl | hp
    · rw [sqdist_self]
      exact foldl_min_le_init _ _
    · simpa [sqdist_self] using
        foldl_min_le_mem _ (sqdist p q) _ (List.mem_map_of_mem (sqdist p) hp)

/-- The scanned cloud produced by `prep` is defined and non-empty whenever
the input cloud is non-empty (the default bound 100 is positive). -/
theorem prep_some_ne_nil (pts : List Point) (h : pts ≠ []) :
    ∃ B, prep pts = some B ∧ B ≠ [] := by
  by_cases hlt : pts.length < 100
  · exact ⟨pts, by simp [prep, hlt], h⟩
  · refine ?_
    unfold prep downsample_points
    rw [if_neg hlt]
    by_cases hle : pts.length ≤ 100
    · rw [if_pos hle]
      exact ⟨pts, rfl, h⟩
    · rw [if_neg hle, if_neg (by norm_num : ¬(100 : ℕ) = 0)]
      exact ⟨_, rfl, List.ne_nil_of_length_pos (by simp)⟩

/-- C7: the one-way Chamfer distance of any non-empty cloud to itself is
zero; both arguments go through the same downsampling, so each surviving
point finds itself at distance zero. -/
theorem c7_self_distance_zero (A : List Point) (hA : A ≠ []) :
    calculate_distance A A = some ((0 : ℚ) : WithTop ℚ) := by
  obtain ⟨B, hB, hBne⟩ := prep_some_ne_nil A hA
  have hB0 : ¬ B.length = 0 := by simpa [List.length_eq_zero] using hBne
  unfold calculate_distance
  rw [hB]
  simp only [Option.some_bind]
  rw [if_neg hB0, if_neg hB0]
  have hsum : (B.map (fun p => minD p B)).sum = 0 := by
    refine List.sum_eq_zero ?_
    intro x hx
    rcases List.mem_map.1 hx with ⟨p, hp, rfl⟩
    exact minD_eq_zero_of_mem p B hp
  rw [hsum, zero_div]

/-- C7 witness: a concrete two-point cloud is at distance zero from
itself. -/
theorem c7_self_distance_zero_witness :
    calculate_distance [((0 : ℚ), (0 : ℚ)), ((3 : ℚ), (4 : ℚ))]
      [((0 : ℚ), (0 : ℚ)), ((3 : ℚ), (4 : ℚ))] = some ((0 : ℚ) : WithTop ℚ) :=
  c7_self_distance_zero [((0 : ℚ), (0 : ℚ)), ((3 : ℚ), (4 : ℚ))] (by decide)

/-- C8 (amended): for every positive `maxPoints` bound, `downsample_points`
succeeds; it is the identity when the cloud fits the bound, and otherwise
it returns exactly `maxPoints` points, the entries at indices
`floor(i * len / maxPoints)` in traversal order, never more points than the
input (with `maxPoints = 0` and a non-empty cloud the code instead raises). -/
theorem c8_downsample_spec (points : List Point) (max_points : ℕ)
    (hm : 1 ≤ max_points) :
    ∃ r, downsample_points points max_points = some r ∧
      (points.length ≤ max_points → r = points) ∧
      (max_points < points.length →
        r.length = max_points ∧
        ∀ i, i < max_points →
          r[i]? = points[i * points.length / max_points]?) ∧
      r.length ≤ points.length := by
  by_cases h : points.length ≤ max_points
  · refine ⟨points, ?_, fun _ => rfl, fun hc => absurd h (not_le.2 hc), le_refl _⟩
    simp [downsample_points, h]
  · push_neg at h
    have hm0 : ¬ max_points = 0 := by omega
    have hlen0 : 0 < points.length := by omega
    refine ⟨(List.range max_points).map
        (fun i => points.getD (i * points.length / max_points) (0, 0)),
      ?_, ?_, ?_, ?_⟩
    · unfold downsample_points
      rw [if_neg (not_le.2 h), if_neg hm0]
    · intro hle
      exact absurd hle (not_le.2 h)
    · intro _
      refine ⟨by simp, ?_⟩
      intro i hi
      have hidx : i * points.length / max_points < points.length := by
        refine (Nat.div_lt_iff_lt_mul (Nat.pos_of_ne_zero hm0)).2 ?_
        rw [Nat.mul_comm points.length max_points]
        exact (Nat.mul_lt_mul_right hlen0).2 hi
      rw [List.getElem?_map, List.getElem?_range hi]
      simp only [Option.map_some']
      rw [List.getD_eq_getElem _ _ hidx, List.getElem?_eq_getElem hidx]
    · simp
      omega

/-- C8 witness: a three-point cloud downsampled to bound 2 keeps the entries
at indices 0 and 1 (`floor(0*3/2) = 0`, `floor(1*3/2) = 1`). -/
theorem c8_downsample_spec_witness :
    ∃ r, downsample_points [((0 : ℚ), 0), ((1 : ℚ), 1), ((2 : ℚ), 2)] 2 = some r ∧
      (([((0 : ℚ), 0), ((1 : ℚ), 1), ((2 : ℚ), 2)] : List Point).length ≤ 2 →
        r = [((0 : ℚ), 0), ((1 : ℚ), 1), ((2 : ℚ), 2)]) ∧
      (2 < ([((0 : ℚ), 0), ((1 : ℚ), 1), ((2 : ℚ), 2)] : List Point).length →
        r.length = 2 ∧
        ∀ i, i < 2 →
          r[i]? = ([((0 : ℚ), 0), ((1 : ℚ), 1), ((2 : ℚ), 2)] :
            List Point)[i * ([((0 : ℚ), 0), ((1 : ℚ), 1), ((2 : ℚ), 2)] :
              List Point).length / 2]?) ∧
      r.length ≤ ([((0 : ℚ), 0), ((1 : ℚ), 1), ((2 : ℚ), 2)] : List Point).length :=
  c8_downsample_spec [((0 : ℚ), 0), ((1 : ℚ), 1), ((2 : ℚ), 2)] 2 (by decide)

/-- The label kept by the 1-NN scan is either the seed label or the label of
some scanned entry. -/
theorem bestMatch_label_mem (n : List Point) :
    ∀ (kb : List Entry) (acc r : WithTop ℚ × Char),
      bestMatch kb n acc = some r → r.2 = acc.2 ∨ ∃ e ∈ kb, e.label = r.2 := by
  intro kb
  induction kb with
  | nil =>
    intro acc r h
    simp only [bestMatch, Option.some_inj] at h
    exact Or.inl (congrArg Prod.snd h.symm)
  | cons e rest ih =>
    intro acc r h
    simp only [bestMatch] at h
    cases hs : symmetric_score n e.points with
    | none =>
      rw [hs] at h
      cases h
    | some s =>
      rw [hs, Option.some_bind] at h
      rcases ih _ r h with h2 | ⟨e2, he2, hl⟩
      · by_cases hc : s < acc.1
        · rw [if_pos hc] at h2
          exact Or.inr ⟨e, List.mem_cons_self e rest, h2.symm⟩
        · rw [if_neg hc] at h2
          exact Or.inl h2
      · exact Or.inr ⟨e2, List.mem_cons_of_mem e he2, hl⟩

/-- Every character emitted by the per-character step is the sentinel or the
label of some knowledge-base entry. -/
theorem solveChar_label_mem (kb : List Entry) (pts : List Point) (c : Char)
    (h : solveChar kb pts = some c) : c = '?' ∨ ∃ e ∈ kb, e.label = c := by
  unfold solveChar at h
  rcases Option.map_eq_some'.1 h with ⟨r, hr, hc⟩
  by_cases hlt : r.1 < ((1000 : ℚ) : WithTop ℚ)
  · rw [if_pos hlt] at hc
    rcases bestMatch_label_mem _ kb _ r hr with h2 | ⟨e, he, hl⟩
    · exact Or.inl (hc ▸ h2)
    · exact Or.inr ⟨e, he, hc ▸ hl⟩
  · rw [if_neg hlt] at hc
    exact Or.inl hc.symm

/-- Characters accumulated by the loop come from the accumulator, the
sentinel, or knowledge-base labels. -/
theorem solveAux_chars (kb : List Entry) :
    ∀ (paths : List (List Point)) (acc s : String),
      solveAux kb paths acc = some s →
      ∀ c ∈ s.data, c ∈ acc.data ∨ c = '?' ∨ ∃ e ∈ kb, e.label = c := by
  intro paths
  induction paths with
  | nil =>
    intro acc s h c hc
    simp only [solveAux, Option.some_inj] at h
    exact Or.inl (h ▸ hc)
  | cons pts rest ih =>
    intro acc s h c hc
    simp only [solveAux] at h
    by_cases h0 : pts.length = 0
    · rw [if_pos h0] at h
      exact ih acc s h c hc
    · rw [if_neg h0] at h
      cases hch : solveChar kb pts with
      | none =>
        rw [hch] at h
        cases h
      | some ch =>
        rw [hch, Option.some_bind] at h
        rcases ih _ s h c hc with hmem | hrest
        · rw [String.data_push] at hmem
          rcases List.mem_append.1 hmem with hmem | hmem
          · exact Or.inl hmem
          · have : c = ch := by simpa using hmem
            subst this
            exact Or.inr (solveChar_label_mem kb pts c hch)
        · exact Or.inr hrest

/-- C10: every character of a string returned by `solve` is the unknown
sentinel or the label of some entry of the knowledge base at call time. -/
theorem c10_labels_from_kb (kb : List Entry) (paths : List (List Point))
    (s : String) (h : solve kb paths = some s) :
    ∀ c ∈ s.data, c = '?' ∨ ∃ e ∈ kb, e.label = c := by
  intro c hc
  rcases solveAux_chars kb paths "" s h c hc with hmem | hrest
  · rw [show ("" : String).data = [] from rfl] at hmem
    cases hmem
  · exact hrest

/-- C10 witness: the single character of the concrete result `"?"` over the
empty knowledge base is the sentinel (or a stored label, vacuously). -/
theorem c10_labels_from_kb_witness :
    '?' = '?' ∨ ∃ e ∈ ([] : List Entry), e.label = '?' :=
  c10_labels_from_kb [] [[((1 : ℚ), (1 : ℚ))]] "?"
    (by norm_num [solve, solveAux, solveChar, bestMatch]; rfl)
    '?' (by decide)

/-- Bounding-box width `max_x - min_x` computed by `normalize_points`. -/
def bboxW (points : List Point) : ℚ :=
  maxList (points.map Prod.fst) - minList (points.map Prod.fst)

/-- Bounding-box height `max_y - min_y` computed by `normalize_points`. -/
def bboxH (points : List Point) : ℚ :=
  maxList (points.map Prod.snd) - minList (points.map Prod.snd)

/-- Bounding-box centre x-coordinate `(min_x + max_x) / 2`. -/
def bboxCX (points : List Point) : ℚ :=
  (minList (points.map Prod.fst) + maxList (points.map Prod.fst)) / 2

/-- Bounding-box centre y-coordinate `(min_y + max_y) / 2`. -/
def bboxCY (points : List Point) : ℚ :=
  (minList (points.map Prod.snd) + maxList (points.map Prod.snd)) / 2

/-- The uniform scale factor `size / max(w, h)` of `normalize_points` at the
default `size = 100`. -/
def normScale (points : List Point) : ℚ :=
  100 / max (bboxW points) (bboxH points)

/-- The affine point transformation applied by `normalize_points` at the
default `size = 100`: the same scale factor on both axes, translating the
bounding-box centre to `(50, 50)`. -/
def normMap (points : List Point) (q : Point) : Point :=
  ((q.1 - bboxCX points) * normScale points + 50,
   (q.2 - bboxCY points) * normScale points + 50)

/-- A degenerate bounding box (zero width or zero height) makes
`normalize_points` return the empty list. -/
theorem normalize_points_degenerate (points : List Point) (size : ℚ)
    (h : bboxW points = 0 ∨ bboxH points = 0) :
    normalize_points points size = [] := by
  have h' : maxList (List.map Prod.fst points) - minList (List.map Prod.fst points) = 0 ∨
      maxList (List.map Prod.snd points) - minList (List.map Prod.snd points) = 0 := h
  simp only [normalize_points]
  by_cases h0 : points.length = 0
  · rw [if_pos h0]
  · rw [if_neg h0, if_pos h']

/-- In the non-degenerate case `normalize_points` (at the default size) is
exactly the map by the affine transformation `normMap`. -/
theorem normalize_points_eq_map (points : List Point) (h0 : points ≠ [])
    (hw : bboxW points ≠ 0) (hh : bboxH points ≠ 0) :
    normalize_points points 100 = points.map (normMap points) := by
  have hw' : maxList (List.map Prod.fst points) - minList (List.map Prod.fst points) ≠ 0 := hw
  have hh' : maxList (List.map Prod.snd points) - minList (List.map Prod.snd points) ≠ 0 := hh
  simp only [normalize_points]
  rw [if_neg (by simpa [List.length_eq_zero] using h0),
    if_neg (not_or.2 ⟨hw', hh'⟩)]
  refine List.map_congr_left fun q _ => ?_
  simp only [normMap, normScale, bboxW, bboxH, bboxCX, bboxCY]
  norm_num

/-- C5: `normalize_points` returns the empty list exactly when the cloud is
empty or its bounding box has zero width or height; otherwise it maps every
point by the single uniform scale factor `100 / max(w, h)` on both axes,
translating the bounding-box centre to `(50, 50)`. -/
theorem c5_normalize_spec (points : List Point) :
    (normalize_points points 100 = [] ↔
      points = [] ∨ bboxW points = 0 ∨ bboxH points = 0) ∧
    (points ≠ [] → bboxW points ≠ 0 → bboxH points ≠ 0 →
      normalize_points points 100 = points.map (normMap points) ∧
      normMap points (bboxCX points, bboxCY points) = (50, 50)) := by
  constructor
  · constructor
    · intro hnil
      by_contra hc
      push_neg at hc
      obtain ⟨h0, hw, hh⟩ := hc
      rw [normalize_points_eq_map points h0 hw hh] at hnil
      exact h0 (List.map_eq_nil_iff.1 hnil)
    · rintro (rfl | hw | hh)
      · rfl
      · exact normalize_points_degenerate points 100 (Or.inl hw)
      · exact normalize_points_degenerate points 100 (Or.inr hh)
  · intro h0 hw hh
    refine ⟨normalize_points_eq_map points h0 hw hh, ?_⟩
    simp [normMap]

/-- C5 witness: the cloud `[(0,0), (2,1)]` has a non-degenerate 2×1 box and
is mapped by scale `50` to `[(0,25), (100,75)]`, its centre `(1, 1/2)`
going to `(50, 50)`. -/
theorem c5_normalize_spec_witness :
    normalize_points [((0 : ℚ), (0 : ℚ)), ((2 : ℚ), (1 : ℚ))] 100
        = [((0 : ℚ), (25 : ℚ)), ((100 : ℚ), (75 : ℚ))] ∧
      normMap [((0 : ℚ), (0 : ℚ)), ((2 : ℚ), (1 : ℚ))]
        (bboxCX [((0 : ℚ), (0 : ℚ)), ((2 : ℚ), (1 : ℚ))],
         bboxCY [((0 : ℚ), (0 : ℚ)), ((2 : ℚ), (1 : ℚ))]) = (50, 50) := by
  have h := (c5_normalize_spec [((0 : ℚ), (0 : ℚ)), ((2 : ℚ), (1 : ℚ))]).2
    (by decide)
    (by norm_num [bboxW, minList, maxList, min_def, max_def])
    (by norm_num [bboxH, minList, maxList, min_def, max_def])
  refine ⟨?_, h.2⟩
  rw [h.1]
  norm_num [normMap, normScale, bboxW, bboxH, bboxCX, bboxCY,
    minList, maxList, min_def, max_def]

/-- Nonnegative scaling and translation commute with binary `min`. -/
theorem affine_min (a b x y : ℚ) (ha : 0 ≤ a) :
    min (a * x + b) (a * y + b) = a * min x y + b := by
  rcases le_total x y with h | h
  · rw [min_eq_left (add_le_add_right (mul_le_mul_of_nonneg_left h ha) b), min_eq_left h]
  · rw [min_eq_right (add_le_add_right (mul_le_mul_of_nonneg_left h ha) b), min_eq_right h]

/-- Nonnegative scaling and translation commute with binary `max`. -/
theorem affine_max (a b x y : ℚ) (ha : 0 ≤ a) :
    max (a * x + b) (a * y + b) = a * max x y + b := by
  rcases le_total x y with h | h
  · rw [max_eq_right (add_le_add_right (mul_le_mul_of_nonneg_left h ha) b), max_eq_right h]
  · rw [max_eq_left (add_le_add_right (mul_le_mul_of_nonneg_left h ha) b), max_eq_left h]

/-- Nonnegative affine maps commute with a left fold by `min`. -/
theorem foldl_min_affine (a b : ℚ) (ha : 0 ≤ a) (xs : List ℚ) :
    ∀ x : ℚ, (xs.map (fun t => a * t + b)).foldl min (a * x + b)
      = a * xs.foldl min x + b := by
  induction xs with
  | nil => intro x; rfl
  | cons y ys ih =>
    intro x
    simp only [List.map_cons, List.foldl_cons]
    rw [affine_min a b x y ha]
    exact ih (min x y)

/-- Nonnegative affine maps commute with a left fold by `max`. -/
theorem foldl_max_affine (a b : ℚ) (ha : 0 ≤ a) (xs : List ℚ) :
    ∀ x : ℚ, (xs.map (fun t => a * t + b)).foldl max (a * x + b)
      = a * xs.foldl max x + b := by
  induction xs with
  | nil => intro x; rfl
  | cons y ys ih =>
    intro x
    simp only [List.map_cons, List.foldl_cons]
    rw [affine_max a b x y ha]
    exact ih (max x y)

/-- Nonnegative affine maps commute with the list minimum. -/
theorem minList_map_affine (a b : ℚ) (ha : 0 ≤ a) (l : List ℚ) (hl : l ≠ []) :
    minList (l.map fun t => a * t + b) = a * minList l + b := by
  cases l with
  | nil => exact absurd rfl hl
  | cons x xs =>
    simp only [List.map_cons, minList]
    exact foldl_min_affine a b ha xs x

/-- Nonnegative affine maps commute with the list maximum. -/
theorem maxList_map_affine (a b : ℚ) (ha : 0 ≤ a) (l : List ℚ) (hl : l ≠ []) :
    maxList (l.map fun t => a * t + b) = a * maxList l + b := by
  cases l with
  | nil => exact absurd rfl hl
  | cons x xs =>
    simp only [List.map_cons, maxList]
    exact foldl_max_affine a b ha xs x

/-- A fold by `min` stays below a fold by `max` over the same list. -/
theorem foldl_min_le_foldl_max (xs : List ℚ) :
    ∀ x y : ℚ, x ≤ y → xs.foldl min x ≤ xs.foldl max y := by
  induction xs with
  | nil => intro x y h; exact h
  | cons z zs ih =>
    intro x y h
    exact ih _ _ (le_trans (min_le_left x z) (le_trans h (le_max_left y z)))

/-- The list minimum never exceeds the list maximum. -/
theorem minList_le_maxList (l : List ℚ) : minList l ≤ maxList l := by
  cases l with
  | nil => exact le_refl 0
  | cons x xs => exact foldl_min_le_foldl_max xs x x (le_refl x)

/-- C6: normalization is idempotent, exactly, with coordinates modelled as
rationals: re-normalizing a normalized cloud changes nothing (the
normalized cloud has bounding box `100 × (100·h/w)` or `(100·w/h) × 100`
centred at `(50, 50)`, so the second pass uses scale 1 and no
translation). -/
theorem c6_normalize_idempotent (points : List Point) :
    normalize_points (normalize_points points 100) 100
      = normalize_points points 100 := by
  by_cases h0 : points = []
  · subst h0; rfl
  by_cases hw : bboxW points = 0
  · rw [normalize_points_degenerate points 100 (Or.inl hw)]
    rfl
  by_cases hh : bboxH points = 0
  · rw [normalize_points_degenerate points 100 (Or.inr hh)]
    rfl
  have hmap := normalize_points_eq_map points h0 hw hh
  have hwpos : 0 < bboxW points :=
    lt_of_le_of_ne (sub_nonneg.2 (minList_le_maxList _)) (Ne.symm hw)
  have hhpos : 0 < bboxH points :=
    lt_of_le_of_ne (sub_nonneg.2 (minList_le_maxList _)) (Ne.symm hh)
  have hMpos : 0 < max (bboxW points) (bboxH points) := lt_max_of_lt_left hwpos
  have hspos : 0 < normScale points := div_pos (by norm_num) hMpos
  have hfst : (points.map (normMap points)).map Prod.fst
      = (points.map Prod.fst).map
          (fun t => normScale points * t + (50 - normScale points * bboxCX points)) := by
    rw [List.map_map, List.map_map]
    refine List.map_congr_left fun q _ => ?_
    simp only [Function.comp, normMap]
    ring
  have hsnd : (points.map (normMap points)).map Prod.snd
      = (points.map Prod.snd).map
          (fun t => normScale points * t + (50 - normScale points * bboxCY points)) := by
    rw [List.map_map, List.map_map]
    refine List.map_congr_left fun q _ => ?_
    simp only [Function.comp, normMap]
    ring
  have hxne : points.map Prod.fst ≠ [] := fun hc => h0 (List.map_eq_nil_iff.1 hc)
  have hyne : points.map Prod.snd ≠ [] := fun hc => h0 (List.map_eq_nil_iff.1 hc)
  have hminX : minList ((points.map (normMap points)).map Prod.fst)
      = normScale points * minList (points.map Prod.fst)
        + (50 - normScale points * bboxCX points) := by
    rw [hfst]
    exact minList_map_affine _ _ hspos.le _ hxne
  have hmaxX : maxList ((points.map (normMap points)).map Prod.fst)
      = normScale points * maxList (points.map Prod.fst)
        + (50 - normScale points * bboxCX points) := by
    rw [hfst]
    exact maxList_map_affine _ _ hspos.le _ hxne
  have hminY : minList ((points.map (normMap points)).map Prod.snd)
      = normScale points * minList (points.map Prod.snd)
        + (50 - normScale points * bboxCY points) := by
    rw [hsnd]
    exact minList_map_affine _ _ hspos.le _ hyne
  have hmaxY : maxList ((points.map (normMap points)).map Prod.snd)
      = normScale points * maxList (points.map Prod.snd)
        + (50 - normScale points * bboxCY points) := by
    rw [hsnd]
    exact maxList_map_affine _ _ hspos.le _ hyne
  have hW : bboxW (points.map (normMap points)) = normScale points * bboxW points := by
    simp only [bboxW]
    rw [hmaxX, hminX]
    ring
  have hH : bboxH (points.map (normMap points)) = normScale points * bboxH points := by
    simp only [bboxH]
    rw [hmaxY, hminY]
    ring
  have hCX : bboxCX (points.map (normMap points)) = 50 := by
    simp only [bboxCX]
    rw [hminX, hmaxX]
    simp only [bboxCX]
    ring
  have hCY : bboxCY (points.map (normMap points)) = 50 := by
    simp only [bboxCY]
    rw [hminY, hmaxY]
    simp only [bboxCY]
    ring
  have hPne : points.map (normMap points) ≠ [] :=
    fun hc => h0 (List.map_eq_nil_iff.1 hc)
  have hWne : bboxW (points.map (normMap points)) ≠ 0 := by
    rw [hW]
    exact mul_ne_zero (ne_of_gt hspos) hw
  have hHne : bboxH (points.map (normMap points)) ≠ 0 := by
    rw [hH]
    exact mul_ne_zero (ne_of_gt hspos) hh
  have hm : max (bboxW (points.map (normMap points)))
      (bboxH (points.map (normMap points))) = 100 := by
    rw [hW, hH, ← mul_max_of_nonneg _ _ hspos.le]
    rw [normScale]
    exact div_mul_cancel₀ 100 (ne_of_gt hMpos)
  have hscale1 : normScale (points.map (normMap points)) = 1 := by
    rw [normScale, hm]
    norm_num
  rw [hmap, normalize_points_eq_map _ hPne hWne hHne]
  refine (List.map_congr_left fun q _ => ?_).trans (List.map_id _)
  simp only [normMap, hCX, hCY, hscale1, id]
  rw [Prod.ext_iff]
  constructor <;> (simp only []; ring_nf)

/-- C3 (amended): every component with aspect ratio strictly above 1.1 is
partitioned into `max 2 (pyRound (aspectRatio / 0.80))` equal-width bands,
where `pyRound` is Python 3 rounding (half to even); the extractor keeps
the bands with more than 10 points.  In particular aspect ratio exactly 2.0
gives `pyRound 2.5 = 2`, hence 2 bands, not 3. -/
theorem c3_split_band_count (x w h : ℕ) (pts : List (ℕ × ℕ))
    (har : (11 / 10 : ℚ) < (w : ℚ) / (h : ℚ)) :
    process_component x w h pts
      = (split_component x w (num_chars_for w h) pts).filter
          (fun sp => decide (10 < sp.length)) ∧
    (split_component x w (num_chars_for w h) pts).length
      = max 2 (pyRound (((w : ℚ) / (h : ℚ)) / (8 / 10))).toNat := by
  constructor
  · simp [process_component, har]
  · simp [split_component, num_chars_for]

/-- C3 witness: a concrete 40×20 component (aspect ratio 2.0) splits into
`max 2 (pyRound 2.5) = 2` bands. -/
theorem c3_split_band_count_witness :
    process_component 0 40 20 [((5 : ℕ), (3 : ℕ))]
      = (split_component 0 40 (num_chars_for 40 20) [((5 : ℕ), (3 : ℕ))]).filter
          (fun sp => decide (10 < sp.length)) ∧
    (split_component 0 40 (num_chars_for 40 20) [((5 : ℕ), (3 : ℕ))]).length
      = max 2 (pyRound ((((40 : ℕ) : ℚ) / ((20 : ℕ) : ℚ)) / (8 / 10))).toNat :=
  c3_split_band_count 0 40 20 [((5 : ℕ), (3 : ℕ))] (by norm_num)

/-- A non-empty pair of clouds always yields a finite (coerced rational)
one-way Chamfer distance. -/
theorem calculate_distance_finite (a b : List Point) (ha : a ≠ []) (hb : b ≠ []) :
    ∃ q : ℚ, calculate_distance a b = some ((q : ℚ) : WithTop ℚ) := by
  obtain ⟨A, hA, hAne⟩ := prep_some_ne_nil a ha
  obtain ⟨B, hB, hBne⟩ := prep_some_ne_nil b hb
  refine ⟨(A.map (fun p => minD p B)).sum / A.length, ?_⟩
  unfold calculate_distance
  rw [hA, hB]
  simp only [Option.some_bind]
  rw [if_neg (by simpa [List.length_eq_zero] using hAne),
    if_neg (by simpa [List.length_eq_zero] using hBne)]

/-- A non-empty pair of clouds always yields a finite symmetric score. -/
theorem symmetric_score_finite (a b : List Point) (ha : a ≠ []) (hb : b ≠ []) :
    ∃ q : ℚ, symmetric_score a b = some ((q : ℚ) : WithTop ℚ) := by
  obtain ⟨q1, h1⟩ := calculate_distance_finite a b ha hb
  obtain ⟨q2, h2⟩ := calculate_distance_finite b a hb ha
  refine ⟨(q1 + q2) / 2, ?_⟩
  unfold symmetric_score
  rw [h1, h2]
  simp only [Option.some_bind]
  rw [← WithTop.coe_add, WithTop.map_coe]

/-- Full characterization of the 1-NN scan: when every scanned entry has a
defined score, the fold succeeds, and either nothing beat the seed (all
scores at least the seed score) or the result carries the score and label
of the first entry attaining the overall minimum — entries before it score
strictly higher, entries after it score at least as much. -/
theorem bestMatch_argmin (n : List Point) :
    ∀ (kb : List Entry) (acc : WithTop ℚ × Char),
      (∀ e ∈ kb, ∃ s : WithTop ℚ, symmetric_score n e.points = some s) →
      ∃ r, bestMatch kb n acc = some r ∧
        ((r = acc ∧ ∀ e ∈ kb, ∀ s : WithTop ℚ,
            symmetric_score n e.points = some s → acc.1 ≤ s) ∨
         (∃ pre e suf, kb = pre ++ e :: suf ∧
            symmetric_score n e.points = some r.1 ∧ r.2 = e.label ∧
            r.1 < acc.1 ∧
            (∀ e2 ∈ pre, ∀ s : WithTop ℚ,
              symmetric_score n e2.points = some s → r.1 < s) ∧
            (∀ e2 ∈ suf, ∀ s : WithTop ℚ,
              symmetric_score n e2.points = some s → r.1 ≤ s))) := by
  intro kb
  induction kb with
  | nil =>
    intro acc _
    refine ⟨acc, rfl, Or.inl ⟨rfl, ?_⟩⟩
    intro e he
    cases he
  | cons e rest ih =>
    intro acc hall
    obtain ⟨s, hs⟩ := hall e (List.mem_cons_self e rest)
    have hrest : ∀ e2 ∈ rest, ∃ s2 : WithTop ℚ,
        symmetric_score n e2.points = some s2 :=
      fun e2 he2 => hall e2 (List.mem_cons_of_mem e he2)
    by_cases hc : s < acc.1
    · obtain ⟨r, hr, hcase⟩ := ih (s, e.label) hrest
      refine ⟨r, ?_, ?_⟩
      · simp only [bestMatch, hs, Option.some_bind, if_pos hc]
        exact hr
      · rcases hcase with ⟨hreq, hge⟩ | ⟨pre, e1, suf, hsplit, hscore, hlab, hlt, hpre, hsuf⟩
        · subst hreq
          refine Or.inr ⟨[], e, rest, rfl, hs, rfl, hc, ?_, ?_⟩
          · intro e2 he2
            cases he2
          · exact hge
        · refine Or.inr ⟨e :: pre, e1, suf, by rw [hsplit]; rfl, hscore, hlab,
            lt_trans hlt hc, ?_, hsuf⟩
          intro e2 he2 s2 hs2
          rcases List.mem_cons.1 he2 with rfl | he2
          · rw [hs2] at hs
            injection hs with hsv
            rw [hsv]
            exact hlt
          · exact hpre e2 he2 s2 hs2
    · obtain ⟨r, hr, hcase⟩ := ih acc hrest
      refine ⟨r, ?_, ?_⟩
      · simp only [bestMatch, hs, Option.some_bind, if_neg hc]
        exact hr
      · rcases hcase with ⟨hreq, hge⟩ | ⟨pre, e1, suf, hsplit, hscore, hlab, hlt, hpre, hsuf⟩
        · subst hreq
          refine Or.inl ⟨rfl, ?_⟩
          intro e2 he2 s2 hs2
          rcases List.mem_cons.1 he2 with rfl | he2
          · rw [hs2] at hs
            injection hs with hsv
            rw [hsv]
            exact not_lt.1 hc
          · exact hge e2 he2 s2 hs2
        · refine Or.inr ⟨e :: pre, e1, suf, by rw [hsplit]; rfl, hscore, hlab, hlt, ?_, hsuf⟩
          intro e2 he2 s2 hs2
          rcases List.mem_cons.1 he2 with rfl | he2
          · rw [hs2] at hs
            injection hs with hsv
            rw [hsv]
            exact lt_of_lt_of_le hlt (not_lt.1 hc)
          · exact hpre e2 he2 s2 hs2

/-- C2 (amended): for a non-empty knowledge base (with non-empty stored
clouds, and a successfully normalized input cloud), the scan attains a
finite best symmetric score at a first minimum-scoring entry (every entry
scores at least `best`, entries before the winner strictly more), and the
emitted character is that entry's label when `best < 1000` and the unknown
sentinel `'?'` when `best ≥ 1000` (the code's test `best_score < 1000` is
strict, so a best score of exactly 1000 yields the sentinel). -/
theorem c2_best_match_spec (kb : List Entry) (pts : List Point)
    (hkb : kb ≠ []) (hnorm : normalize_points pts 100 ≠ [])
    (hdb : ∀ e ∈ kb, e.points ≠ []) :
    ∃ (best : ℚ) (pre suf : List Entry) (e : Entry),
      kb = pre ++ e :: suf ∧
      symmetric_score (normalize_points pts 100) e.points
        = some ((best : ℚ) : WithTop ℚ) ∧
      (∀ e2 ∈ kb, ∀ s : ℚ,
        symmetric_score (normalize_points pts 100) e2.points
          = some ((s : ℚ) : WithTop ℚ) → best ≤ s) ∧
      (∀ e2 ∈ pre, ∀ s : ℚ,
        symmetric_score (normalize_points pts 100) e2.points
          = some ((s : ℚ) : WithTop ℚ) → best < s) ∧
      solveChar kb pts = some (if best < 1000 then e.label else '?') := by
  have hall : ∀ e ∈ kb, ∃ s : WithTop ℚ,
      symmetric_score (normalize_points pts 100) e.points = some s := by
    intro e he
    obtain ⟨q, hq⟩ := symmetric_score_finite _ _ hnorm (hdb e he)
    exact ⟨_, hq⟩
  obtain ⟨r, hr, hcase⟩ := bestMatch_argmin (normalize_points pts 100) kb
    ((⊤ : WithTop ℚ), '?') hall
  rcases hcase with ⟨_, hge⟩ | ⟨pre, e, suf, hsplit, hscore, hlab, _, hpre, hsuf⟩
  · obtain ⟨e0, he0⟩ := List.exists_mem_of_ne_nil kb hkb
    obtain ⟨q, hq⟩ := symmetric_score_finite _ _ hnorm (hdb e0 he0)
    have htop := hge e0 he0 _ hq
    simp [top_le_iff] at htop
  · have hekb : e ∈ kb := by
      rw [hsplit]
      exact List.mem_append.2 (Or.inr (List.mem_cons_self e suf))
    obtain ⟨bq, hbq⟩ := symmetric_score_finite _ _ hnorm (hdb e hekb)
    have hr1 : r.1 = ((bq : ℚ) : WithTop ℚ) := by
      rw [hscore] at hbq
      exact Option.some_inj.1 hbq
    refine ⟨bq, pre, suf, e, hsplit, hr1 ▸ hscore, ?_, ?_, ?_⟩
    · intro e2 he2 s hs2
      have hle : r.1 ≤ ((s : ℚ) : WithTop ℚ) := by
        rcases List.mem_append.1 (hsplit ▸ he2) with hp2 | hcons
        · exact le_of_lt (hpre e2 hp2 _ hs2)
        · rcases List.mem_cons.1 hcons with rfl | hs2mem
          · rw [hs2] at hscore
            exact le_of_eq (Option.some_inj.1 hscore).symm
          · exact hsuf e2 hs2mem _ hs2
      rw [hr1] at hle
      exact WithTop.coe_le_coe.1 hle
    · intro e2 he2 s hs2
      have hlt2 := hpre e2 he2 _ hs2
      rw [hr1] at hlt2
      exact WithTop.coe_lt_coe.1 hlt2
    · unfold solveChar
      rw [hr]
      simp only [Option.map_some']
      rw [hr1, hlab]
      by_cases hb1 : bq < 1000
      · rw [if_pos (WithTop.coe_lt_coe.2 hb1), if_pos hb1]
      · rw [if_neg (fun hcc => hb1 (WithTop.coe_lt_coe.1 hcc)), if_neg hb1]

/-- C2 witness: a one-entry knowledge base holding exactly the normalized
input shape; the best score is finite, attained at that entry, and the scan
emits its label under the threshold test. -/
theorem c2_best_match_spec_witness :
    ∃ (best : ℚ) (pre suf : List Entry) (e : Entry),
      [Entry.mk 'A' [((0 : ℚ), (25 : ℚ)), ((100 : ℚ), (75 : ℚ))]] = pre ++ e :: suf ∧
      symmetric_score (normalize_points [((0 : ℚ), (0 : ℚ)), ((2 : ℚ), (1 : ℚ))] 100)
          e.points = some ((best : ℚ) : WithTop ℚ) ∧
      (∀ e2 ∈ [Entry.mk 'A' [((0 : ℚ), (25 : ℚ)), ((100 : ℚ), (75 : ℚ))]], ∀ s : ℚ,
        symmetric_score (normalize_points [((0 : ℚ), (0 : ℚ)), ((2 : ℚ), (1 : ℚ))] 100)
          e2.points = some ((s : ℚ) : WithTop ℚ) → best ≤ s) ∧
      (∀ e2 ∈ pre, ∀ s : ℚ,
        symmetric_score (normalize_points [((0 : ℚ), (0 : ℚ)), ((2 : ℚ), (1 : ℚ))] 100)
          e2.points = some ((s : ℚ) : WithTop ℚ) → best < s) ∧
      solveChar [Entry.mk 'A' [((0 : ℚ), (25 : ℚ)), ((100 : ℚ), (75 : ℚ))]]
          [((0 : ℚ), (0 : ℚ)), ((2 : ℚ), (1 : ℚ))]
        = some (if best < 1000 then e.label else '?') :=
  c2_best_match_spec [Entry.mk 'A' [((0 : ℚ), (25 : ℚ)), ((100 : ℚ), (75 : ℚ))]]
    [((0 : ℚ), (0 : ℚ)), ((2 : ℚ), (1 : ℚ))]
    (by decide)
    (by norm_num [normalize_points, minList, maxList, min_def, max_def, List.cons_ne_nil])
    (by decide)
